import Mathlib

/-!
Verification of the concurrent benchmarking harness `benchmark_predictor`
from the rerankers-on-amazon-sagemaker notebooks.

The harness (identical in both notebooks) is:

  def benchmark_predictor(predictor, payload, steps, iterations=5):
      latencies = []
      throughputs = []
      request_counts = []
      def send_request():
          start_time = time.time()
          resp = predictor.predict(data=payload)
          latency = time.time() - start_time
          return latency
      for num_requests in steps:
          iter_latencies = []
          iter_throughputs = []
          for _ in range(iterations):
              start_time = time.time()
              with concurrent.futures.ThreadPoolExecutor(max_workers=num_requests) as executor:
                  futures = [executor.submit(send_request) for _ in range(num_requests)]
                  latencies_batch = [future.result() for future in concurrent.futures.as_completed(futures)]
              total_time = time.time() - start_time
              latency = np.mean(latencies_batch)
              throughput = num_requests / total_time
              iter_latencies.append(latency)
              iter_throughputs.append(throughput)
          avg_latency = np.mean(iter_latencies)
          avg_throughput = np.mean(iter_throughputs)
          latencies.append(avg_latency)
          throughputs.append(avg_throughput)
          request_counts.append(num_requests)
      return request_counts, latencies, throughputs

Shallow embedding choices:
* Timing is an oracle: an `Endpoint` supplies, for level index `li`, trial
  index `ti` and request index `ri`, the measured duration of the
  `predictor.predict` call (or the exception it raises, `Except.error ()`),
  the wall-clock `total_time` of each trial, and the completion order in
  which `concurrent.futures.as_completed` yields the `c` futures of a trial.
* Durations and times are exact rationals (`ℚ`), idealizing IEEE floats.
* `np.mean` of an empty list is NaN in numpy; NaN is modelled by `none`
  (`npMean`, and the NaN-propagating `npMeanO` for lists that may already
  contain NaN). NaN is a value, not an exception.
* Exceptions are modelled by `Except`: `PyErr.predictErr` for an exception
  raised by `predictor.predict` (re-raised by `future.result()`),
  `PyErr.valueErr` for the `ValueError` raised by
  `ThreadPoolExecutor(max_workers=0)`, and `PyErr.zeroDiv` for the
  `ZeroDivisionError` of `num_requests / 0.0`.
* Every `predictor.predict` call performed is recorded in a trace
  (level index, trial index, request index, payload passed), so that
  invocation-count and no-retry properties can be stated.  All `c`
  submitted tasks run (the executor does not cancel on failure), so a
  trial's trace is the full batch even when the trial raises.
-/

namespace RerankerBench

/-- Decidable equality for `Except`, needed to evaluate concrete runs. -/
instance {ε α : Type} [DecidableEq ε] [DecidableEq α] : DecidableEq (Except ε α) := fun a b =>
  match a, b with
  | Except.ok x, Except.ok y =>
    if h : x = y then isTrue (by rw [h]) else isFalse (by simp [h])
  | Except.error x, Except.error y =>
    if h : x = y then isTrue (by rw [h]) else isFalse (by simp [h])
  | Except.ok _, Except.error _ => isFalse (by simp)
  | Except.error _, Except.ok _ => isFalse (by simp)

/-- The exceptions the harness itself can propagate: one raised by
`predictor.predict` (re-raised by `future.result()`), the `ValueError` of
`ThreadPoolExecutor(max_workers=0)`, and the `ZeroDivisionError` of
`num_requests / 0.0`. -/
inductive PyErr : Type where
  | predictErr : PyErr
  | valueErr : PyErr
  | zeroDiv : PyErr
deriving DecidableEq

/-- The env of a run: the timing/failure behaviour of the remote endpoint as
observed by the harness.  `duration li ti ri p` is the measured latency of the
`ri`-th request of trial `ti` at level index `li` when `predictor.predict` is
called with payload `p` (`Except.error ()` if the call raises);
`elapsed li ti` is the wall-clock `total_time` of that trial; `order li ti`
is the order in which `as_completed` yields the futures (a permutation of
`List.range c` in any real execution at concurrency `c`). -/
structure Endpoint (α : Type) where
  duration : ℕ → ℕ → ℕ → α → Except Unit ℚ
  elapsed : ℕ → ℕ → ℚ
  order : ℕ → ℕ → List ℕ

/-- A recorded `predictor.predict` call: level index, trial index, request
index, and the payload value the call received. -/
abbrev Call (α : Type) := ℕ × ℕ × ℕ × α

/-- Arithmetic mean of a list of rationals (`sum / len`; junk `0` on `[]`,
which is never used: the `[]` case is routed through `npMean`). -/
def listMean (xs : List ℚ) : ℚ := xs.sum / xs.length

/-- Model of `np.mean` on a list of numbers: NaN (`none`) on the empty list. -/
def npMean (xs : List ℚ) : Option ℚ :=
  if xs.isEmpty then none else some (listMean xs)

/-- Model of `np.mean` on a list whose entries may already be NaN: NaN if the list is
empty or contains a NaN, otherwise the arithmetic mean. -/
def npMeanO (xs : List (Option ℚ)) : Option ℚ :=
  if xs.isEmpty then none
  else if xs.any (fun x => x.isNone) then none
  else some (listMean (xs.filterMap id))

/-- Model of `send_request`: one `predictor.predict(data=payload)` call, timed from
just before to just after; returns the measured latency or propagates the
exception raised by `predict`. -/
def send_request (ep : Endpoint α) (payload : α) (li ti ri : ℕ) : Except Unit ℚ :=
  ep.duration li ti ri payload

/-- Model of `[future.result() for future in as_completed(futures)]`: collect the
per-request latencies in completion order; the first failed future collected
re-raises its exception and aborts the comprehension. -/
def collectBatch (f : ℕ → Except Unit ℚ) : List ℕ → Except Unit (List ℚ)
  | [] => Except.ok []
  | r :: rs =>
    match f r with
    | Except.error e => Except.error e
    | Except.ok v =>
      match collectBatch f rs with
      | Except.error e => Except.error e
      | Except.ok vs => Except.ok (v :: vs)

/-- One iteration of the inner loop (one trial): submit `c` concurrent
`send_request` calls, join them in completion order `order`, and compute the
trial's mean latency `np.mean(latencies_batch)` and throughput
`num_requests / total_time`.  Returns the trial result (or the propagated
exception) together with the trace of `predict` calls performed; all `c`
submitted tasks run even when one of them raises. -/
def runTrial (ep : Endpoint α) (payload : α) (order : List ℕ) (li ti c : ℕ) :
    Except PyErr (Option ℚ × ℚ) × List (Call α) :=
  if c = 0 then (Except.error PyErr.valueErr, [])
  else
    let trace := (List.range c).map (fun ri => (li, ti, ri, payload))
    match collectBatch (fun ri => send_request ep payload li ti ri) order with
    | Except.error _ => (Except.error PyErr.predictErr, trace)
    | Except.ok batch =>
      if ep.elapsed li ti = 0 then (Except.error PyErr.zeroDiv, trace)
      else (Except.ok (npMean batch, (c : ℚ) / ep.elapsed li ti), trace)

/-- The `for _ in range(iterations)` loop at one concurrency level, over the
given list of trial indices: accumulate `iter_latencies` and
`iter_throughputs`; an exception in a trial aborts the loop (later trials do
not run). -/
def runTrials (ep : Endpoint α) (payload : α) (li c : ℕ) :
    List ℕ → Except PyErr (List (Option ℚ) × List ℚ) × List (Call α)
  | [] => (Except.ok ([], []), [])
  | ti :: ts =>
    match runTrial ep payload (ep.order li ti) li ti c with
    | (Except.error e, tr) => (Except.error e, tr)
    | (Except.ok (lat, thr), tr) =>
      match runTrials ep payload li c ts with
      | (Except.error e, tr2) => (Except.error e, tr ++ tr2)
      | (Except.ok (lats, thrs), tr2) => (Except.ok (lat :: lats, thr :: thrs), tr ++ tr2)

/-- The `for num_requests in steps` loop, over `(level index, num_requests)`
pairs: run the trials of each level, fold the per-trial means into the
level's `avg_latency = np.mean(iter_latencies)` and
`avg_throughput = np.mean(iter_throughputs)`, and accumulate
`request_counts`, `latencies`, `throughputs`; an exception aborts the loop
and propagates. -/
def runLevels (ep : Endpoint α) (payload : α) (t : ℕ) :
    List (ℕ × ℕ) → Except PyErr (List ℕ × List (Option ℚ) × List (Option ℚ)) × List (Call α)
  | [] => (Except.ok ([], [], []), [])
  | p :: ps =>
    match runTrials ep payload p.1 p.2 (List.range t) with
    | (Except.error e, tr) => (Except.error e, tr)
    | (Except.ok (lats, thrs), tr) =>
      match runLevels ep payload t ps with
      | (Except.error e, tr2) => (Except.error e, tr ++ tr2)
      | (Except.ok (rcs, avls, avts), tr2) =>
        (Except.ok (p.2 :: rcs, npMeanO lats :: avls, npMean thrs :: avts), tr ++ tr2)

/-- Pair each concurrency level with its position in `steps` (the level
index used by the timing oracle), starting at index `n`. -/
def enumSteps (n : ℕ) : List ℕ → List (ℕ × ℕ)
  | [] => []
  | c :: cs => (n, c) :: enumSteps (n + 1) cs

/-- Model of `benchmark_predictor(predictor, payload, steps, iterations=5)`: returns
either the triple `(request_counts, latencies, throughputs)` or the
propagated exception, together with the trace of all `predictor.predict`
calls performed.  Latency and throughput entries are `Option ℚ` because
`np.mean([])` is NaN (`none`). -/
def benchmark_predictor (ep : Endpoint α) (payload : α) (steps : List ℕ)
    (iterations : ℕ := 5) :
    Except PyErr (List ℕ × List (Option ℚ) × List (Option ℚ)) × List (Call α) :=
  runLevels ep payload iterations (enumSteps 0 steps)

set_option synthInstance.maxSize 2048 in
instance {α : Type} [DecidableEq α] :
    DecidableEq (Except PyErr (List ℕ × List (Option ℚ) × List (Option ℚ)) × List (Call α)) :=
  inferInstance

/-- The duration an invocation returned, read back from the oracle (junk `0`
for a call that raised; used only to name the collected latencies). -/
def durOf (ep : Endpoint α) (payload : α) (li ti ri : ℕ) : ℚ :=
  ((ep.duration li ti ri payload).toOption).getD 0

/-- Stub endpoint: every call succeeds in 1 second, every trial takes 1
second of wall-clock time, futures complete in submission order. -/
def stubOne : Endpoint Unit :=
  { duration := fun _ _ _ _ => Except.ok 1
    elapsed := fun _ _ => 1
    order := fun _ _ => [0] }

/-- Stub endpoint with fixed duration `1/2` at concurrency 2, futures
completing in reverse submission order. -/
def stubHalf : Endpoint Unit :=
  { duration := fun _ _ _ _ => Except.ok (1 / 2)
    elapsed := fun _ _ => 1 / 2
    order := fun _ _ => [1, 0] }

/-- Variant of `stubHalf` with the completion order flipped to submission order. -/
def stubHalfSwap : Endpoint Unit :=
  { duration := fun _ _ _ _ => Except.ok (1 / 2)
    elapsed := fun _ _ => 1 / 2
    order := fun _ _ => [0, 1] }

/-- Stub endpoint whose calls succeed at level index 0 and raise at every
other level index. -/
def stubFailL1 : Endpoint Unit :=
  { duration := fun li _ _ _ => if li = 0 then Except.ok 1 else Except.error ()
    elapsed := fun _ _ => 1
    order := fun _ _ => [0] }

/-- If every collected future succeeded, the batch is the list of their
latencies in collection order. -/
theorem collectBatch_ok_of_forall {f : ℕ → Except Unit ℚ} {g : ℕ → ℚ} :
    ∀ {rs : List ℕ}, (∀ r ∈ rs, f r = Except.ok (g r)) →
      collectBatch f rs = Except.ok (rs.map g)
  | [], _ => rfl
  | r :: rs, h => by
    have hr := h r (List.mem_cons_self r rs)
    have ht := collectBatch_ok_of_forall (fun x hx => h x (List.mem_cons_of_mem r hx))
    simp [collectBatch, hr, ht]

/-- If the collection succeeded, every collected future succeeded. -/
theorem collectBatch_ok_forall {f : ℕ → Except Unit ℚ} :
    ∀ {rs : List ℕ} {vs : List ℚ}, collectBatch f rs = Except.ok vs →
      ∀ r ∈ rs, ∃ v, f r = Except.ok v := by
  intro rs
  induction rs with
  | nil => intro vs _ r hr; cases hr
  | cons a as ih =>
    intro vs h r hr
    cases hfa : f a with
    | error e => rw [collectBatch, hfa] at h; cases h
    | ok v =>
      rw [collectBatch, hfa] at h
      cases hcb : collectBatch f as with
      | error e => rw [hcb] at h; cases h
      | ok vs2 =>
        rcases List.mem_cons.mp hr with rfl | hr2
        · exact ⟨v, hfa⟩
        · exact ih hcb r hr2

/-- A failed future in the collection order makes the collection re-raise. -/
theorem collectBatch_error_of_mem {f : ℕ → Except Unit ℚ} :
    ∀ {rs : List ℕ} {r : ℕ}, r ∈ rs → f r = Except.error () →
      collectBatch f rs = Except.error () := by
  intro rs
  induction rs with
  | nil => intro r hr; cases hr
  | cons a as ih =>
    intro r hr hf
    rcases List.mem_cons.mp hr with rfl | hr2
    · rw [collectBatch, hf]
    · cases hfa : f a with
      | error e => rw [collectBatch, hfa]
      | ok v => rw [collectBatch, hfa, ih hr2 hf]

/-- If the collection re-raised, some collected future failed. -/
theorem collectBatch_error_exists {f : ℕ → Except Unit ℚ} :
    ∀ {rs : List ℕ} {e : Unit}, collectBatch f rs = Except.error e →
      ∃ r ∈ rs, f r = Except.error () := by
  intro rs
  induction rs with
  | nil => intro e h; cases h
  | cons a as ih =>
    intro e h
    cases hfa : f a with
    | error e2 => exact ⟨a, List.mem_cons_self a as, by rw [hfa]⟩
    | ok v =>
      rw [collectBatch, hfa] at h
      cases hcb : collectBatch f as with
      | error e2 =>
        rcases ih hcb with ⟨r, hr, hfr⟩
        exact ⟨r, List.mem_cons_of_mem a hr, hfr⟩
      | ok vs2 => rw [hcb] at h; cases h

/-- The arithmetic mean does not depend on the order of the list. -/
theorem listMean_perm {l1 l2 : List ℚ} (h : l1.Perm l2) : listMean l1 = listMean l2 := by
  unfold listMean
  rw [h.sum_eq, h.length_eq]

/-- Likewise `np.mean` does not depend on the order of the list. -/
theorem npMean_perm {l1 l2 : List ℚ} (h : l1.Perm l2) : npMean l1 = npMean l2 := by
  unfold npMean
  have he : l1.isEmpty = l2.isEmpty := by
    rcases l1 with _ | ⟨a, l1⟩
    · cases h.nil_eq; rfl
    · rcases l2 with _ | ⟨b, l2⟩
      · exact absurd h.symm.nil_eq (by simp)
      · rfl
  rw [he, listMean_perm h]

/-- The arithmetic mean of a constant nonempty list is that constant. -/
theorem listMean_const {β : Type} (l : List β) (d : ℚ) (hl : l ≠ []) :
    listMean (l.map fun _ => d) = d := by
  unfold listMean
  have hne : (l.length : ℚ) ≠ 0 :=
    Nat.cast_ne_zero.mpr (by simpa [List.length_eq_zero] using hl)
  rw [List.map_const', List.sum_replicate, List.length_replicate, nsmul_eq_mul,
    mul_div_cancel_left₀ _ hne]

/-- Value of `np.mean` over a NaN-free list of values. -/
theorem npMeanO_map_some (l : List ℚ) (hl : l ≠ []) :
    npMeanO (l.map some) = some (listMean l) := by
  unfold npMeanO
  have h1 : (l.map some).isEmpty = false := by
    simp [List.isEmpty_iff, hl]
  have h2 : (l.map some).any (fun x => x.isNone) = false := by
    simp
  rw [h1, h2]
  simp [List.filterMap_map]

/-- The concurrency levels enumerated by `enumSteps` are the input levels. -/
theorem enumSteps_map_snd : ∀ (n : ℕ) (l : List ℕ), (enumSteps n l).map Prod.snd = l
  | _, [] => rfl
  | n, c :: cs => by simp [enumSteps, enumSteps_map_snd (n + 1) cs]

theorem enumSteps_length : ∀ (n : ℕ) (l : List ℕ), (enumSteps n l).length = l.length
  | _, [] => rfl
  | n, c :: cs => by simp [enumSteps, enumSteps_length (n + 1) cs]

/-- Characterization of membership in `enumSteps`. -/
theorem mem_enumSteps :
    ∀ {n : ℕ} {l : List ℕ} {p : ℕ × ℕ}, p ∈ enumSteps n l →
      n ≤ p.1 ∧ p.1 < n + l.length ∧ l.getD (p.1 - n) 0 = p.2 := by
  intro n l
  induction l generalizing n with
  | nil => intro p hp; cases hp
  | cons c cs ih =>
    intro p hp
    rcases List.mem_cons.mp hp with rfl | hp2
    · simp
    · rcases ih hp2 with ⟨h1, h2, h3⟩
      refine ⟨by omega, by simp; omega, ?_⟩
      have hd : p.1 - n = (p.1 - (n + 1)) + 1 := by omega
      rw [hd]
      simpa using h3

/-- Each position of `steps` appears in `enumSteps`. -/
theorem getD_mem_enumSteps :
    ∀ {n i : ℕ} {l : List ℕ}, i < l.length → (n + i, l.getD i 0) ∈ enumSteps n l := by
  intro n i l
  induction l generalizing n i with
  | nil => intro h; cases h
  | cons c cs ih =>
    intro h
    cases i with
    | zero => simp [enumSteps]
    | succ j =>
      have := ih (n := n + 1) (i := j) (by simpa using h)
      have harith : n + 1 + j = n + (j + 1) := by omega
      rw [harith] at this
      exact List.mem_cons_of_mem _ (by simpa using this)

/-- The level indices produced by `enumSteps` are distinct. -/
theorem enumSteps_fst_nodup : ∀ (n : ℕ) (l : List ℕ), ((enumSteps n l).map Prod.fst).Nodup
  | _, [] => List.nodup_nil
  | n, c :: cs => by
    rw [enumSteps, List.map_cons, List.nodup_cons]
    refine ⟨?_, enumSteps_fst_nodup (n + 1) cs⟩
    intro hmem
    rcases List.mem_map.mp hmem with ⟨q, hq, hq1⟩
    have := (mem_enumSteps hq).1
    omega

/-- The calls a trial performs: one `predict` call per submitted request,
whatever the outcome of the trial. -/
theorem runTrial_snd (ep : Endpoint α) (payload : α) (o : List ℕ) (li ti c : ℕ) :
    (runTrial ep payload o li ti c).2 = (List.range c).map fun ri => (li, ti, ri, payload) := by
  unfold runTrial
  rcases Nat.eq_zero_or_pos c with rfl | hc
  · simp
  · rw [if_neg hc.ne']
    cases h : collectBatch (fun ri => send_request ep payload li ti ri) o with
    | error e => simp
    | ok batch =>
      simp only
      split <;> simp

/-- Membership in a trial's trace. -/
theorem runTrial_mem {ep : Endpoint α} {payload : α} {o : List ℕ} {li ti c : ℕ}
    {e : Call α} (he : e ∈ (runTrial ep payload o li ti c).2) :
    ∃ ri, ri < c ∧ e = (li, ti, ri, payload) := by
  rw [runTrial_snd] at he
  rcases List.mem_map.mp he with ⟨ri, hri, rfl⟩
  exact ⟨ri, List.mem_range.mp hri, rfl⟩

/-- A fully successful trial: the mean of all `c` latencies and the
throughput `c / total_time`. -/
theorem runTrial_ok_eq (ep : Endpoint α) (payload : α) {o : List ℕ} {li ti c : ℕ}
    {dur : ℕ → ℚ}
    (hc : c ≠ 0) (ho : o.Perm (List.range c))
    (hdur : ∀ ri, ri < c → ep.duration li ti ri payload = Except.ok (dur ri))
    (hel : ep.elapsed li ti ≠ 0) :
    runTrial ep payload o li ti c =
      (Except.ok (some (listMean ((List.range c).map dur)), (c : ℚ) / ep.elapsed li ti),
       (List.range c).map fun ri => (li, ti, ri, payload)) := by
  have hcb : collectBatch (fun ri => send_request ep payload li ti ri) o
      = Except.ok (o.map dur) := by
    refine collectBatch_ok_of_forall (fun r hr => ?_)
    have hrc : r < c := List.mem_range.mp (ho.mem_iff.mp hr)
    simpa [send_request] using hdur r hrc
  unfold runTrial
  rw [if_neg hc]
  simp only [hcb, if_neg hel]
  have hperm : (o.map dur).Perm ((List.range c).map dur) := ho.map dur
  rw [npMean_perm hperm]
  have hne : ((List.range c).map dur).isEmpty = false := by
    simp [List.isEmpty_iff, List.range_eq_nil, hc]
  rw [npMean, hne]
  simp

/-- A trial containing a failed request re-raises the `predict` exception. -/
theorem runTrial_error_of_fail (ep : Endpoint α) (payload : α) {o : List ℕ} {li ti c ri : ℕ}
    (hc : c ≠ 0) (hri : ri ∈ o) (hfail : ep.duration li ti ri payload = Except.error ()) :
    (runTrial ep payload o li ti c).1 = Except.error PyErr.predictErr := by
  have hcb : collectBatch (fun r => send_request ep payload li ti r) o = Except.error () :=
    collectBatch_error_of_mem hri (by simpa [send_request] using hfail)
  unfold runTrial
  rw [if_neg hc]
  simp [hcb]

/-- Inversion of a successful trial. -/
theorem runTrial_ok_inv {ep : Endpoint α} {payload : α} {o : List ℕ} {li ti c : ℕ}
    {v : Option ℚ × ℚ} {tr : List (Call α)}
    (h : runTrial ep payload o li ti c = (Except.ok v, tr)) :
    c ≠ 0 ∧ ∃ batch, collectBatch (fun ri => send_request ep payload li ti ri) o = Except.ok batch ∧
      ep.elapsed li ti ≠ 0 ∧ v = (npMean batch, (c : ℚ) / ep.elapsed li ti) := by
  unfold runTrial at h
  by_cases hc : c = 0
  · rw [if_pos hc] at h
    cases h
  · rw [if_neg hc] at h
    refine ⟨hc, ?_⟩
    cases hcb : collectBatch (fun ri => send_request ep payload li ti ri) o with
    | error e => rw [hcb] at h; simp at h
    | ok batch =>
      rw [hcb] at h
      dsimp only at h
      by_cases hel : ep.elapsed li ti = 0
      · rw [if_pos hel] at h; simp at h
      · rw [if_neg hel] at h
        exact ⟨batch, rfl, hel, by injection h with h1 _; injection h1 with h2; exact h2.symm⟩

theorem npMean_of_ne_nil {l : List ℚ} (hl : l ≠ []) : npMean l = some (listMean l) := by
  unfold npMean
  rw [if_neg (by simpa [List.isEmpty_iff] using hl)]

/-- A level whose trials all fully succeed: the per-trial means in trial
order, the per-trial throughputs, and one `predict` call per request. -/
theorem runTrials_ok_eq (ep : Endpoint α) (payload : α) {li c : ℕ} {dur : ℕ → ℕ → ℚ}
    (hc : c ≠ 0) :
    ∀ {ts : List ℕ},
      (∀ ti ∈ ts, (ep.order li ti).Perm (List.range c)) →
      (∀ ti ∈ ts, ∀ ri, ri < c → ep.duration li ti ri payload = Except.ok (dur ti ri)) →
      (∀ ti ∈ ts, ep.elapsed li ti ≠ 0) →
      runTrials ep payload li c ts =
        (Except.ok (ts.map fun ti => some (listMean ((List.range c).map (dur ti))),
                    ts.map fun ti => (c : ℚ) / ep.elapsed li ti),
         ts.flatMap fun ti => (List.range c).map fun ri => (li, ti, ri, payload)) := by
  intro ts
  induction ts with
  | nil => intro _ _ _; rfl
  | cons ti ts ih =>
    intro ho hd he
    have htrial := @runTrial_ok_eq _ ep payload (ep.order li ti) li ti c (dur ti) hc
      (ho ti (List.mem_cons_self ti ts)) (hd ti (List.mem_cons_self ti ts))
      (he ti (List.mem_cons_self ti ts))
    have hrest := ih (fun x hx => ho x (List.mem_cons_of_mem ti hx))
      (fun x hx => hd x (List.mem_cons_of_mem ti hx))
      (fun x hx => he x (List.mem_cons_of_mem ti hx))
    rw [runTrials, htrial, hrest]
    rfl

/-- A run whose levels all fully succeed: `request_counts` echoes the
levels, and each level reports the mean of its per-trial mean latencies and
the mean of its per-trial throughputs. -/
theorem runLevels_ok_eq (ep : Endpoint α) (payload : α) {t : ℕ} {dur : ℕ → ℕ → ℕ → ℚ}
    (ht : t ≠ 0) :
    ∀ {ps : List (ℕ × ℕ)},
      (∀ p ∈ ps, p.2 ≠ 0) →
      (∀ p ∈ ps, ∀ ti, ti < t → (ep.order p.1 ti).Perm (List.range p.2)) →
      (∀ p ∈ ps, ∀ ti, ti < t → ∀ ri, ri < p.2 →
        ep.duration p.1 ti ri payload = Except.ok (dur p.1 ti ri)) →
      (∀ p ∈ ps, ∀ ti, ti < t → ep.elapsed p.1 ti ≠ 0) →
      runLevels ep payload t ps =
        (Except.ok (ps.map Prod.snd,
            ps.map fun p => some (listMean ((List.range t).map fun ti =>
              listMean ((List.range p.2).map fun ri => dur p.1 ti ri))),
            ps.map fun p => some (listMean ((List.range t).map fun ti =>
              (p.2 : ℚ) / ep.elapsed p.1 ti))),
         ps.flatMap fun p => (List.range t).flatMap fun ti =>
           (List.range p.2).map fun ri => (p.1, ti, ri, payload)) := by
  intro ps
  induction ps with
  | nil => intro _ _ _ _; rfl
  | cons p ps ih =>
    intro hc ho hd he
    have hmem := List.mem_cons_self p ps
    have hlevel := @runTrials_ok_eq _ ep payload p.1 p.2
      (fun ti ri => dur p.1 ti ri) (hc p hmem)
      (List.range t)
      (fun ti hti => ho p hmem ti (List.mem_range.mp hti))
      (fun ti hti => hd p hmem ti (List.mem_range.mp hti))
      (fun ti hti => he p hmem ti (List.mem_range.mp hti))
    have hrest := ih (fun x hx => hc x (List.mem_cons_of_mem p hx))
      (fun x hx => ho x (List.mem_cons_of_mem p hx))
      (fun x hx => hd x (List.mem_cons_of_mem p hx))
      (fun x hx => he x (List.mem_cons_of_mem p hx))
    rw [runLevels, hlevel, hrest]
    dsimp only
    have hrt : (List.range t).map (fun ti => listMean ((List.range p.2).map fun ri => dur p.1 ti ri)) ≠ [] := by
      simp [List.range_eq_nil, ht]
    have hlat : npMeanO ((List.range t).map fun ti =>
        some (listMean ((List.range p.2).map fun ri => dur p.1 ti ri)))
        = some (listMean ((List.range t).map fun ti =>
            listMean ((List.range p.2).map fun ri => dur p.1 ti ri))) := by
      rw [show ((List.range t).map fun ti =>
          some (listMean ((List.range p.2).map fun ri => dur p.1 ti ri)))
          = ((List.range t).map fun ti =>
              listMean ((List.range p.2).map fun ri => dur p.1 ti ri)).map some by
        rw [List.map_map]; rfl]
      exact npMeanO_map_some _ hrt
    have hthr : npMean ((List.range t).map fun ti => (p.2 : ℚ) / ep.elapsed p.1 ti)
        = some (listMean ((List.range t).map fun ti => (p.2 : ℚ) / ep.elapsed p.1 ti)) :=
      npMean_of_ne_nil (by simp [List.range_eq_nil, ht])
    rw [hlat, hthr]
    rfl

/-- On a completed run, `request_counts` echoes the input levels, and the
three returned lists have one entry per level. -/
theorem runLevels_ok_shape {ep : Endpoint α} {payload : α} {t : ℕ} :
    ∀ {ps : List (ℕ × ℕ)} {rcs : List ℕ} {ls ths : List (Option ℚ)} {tr : List (Call α)},
      runLevels ep payload t ps = (Except.ok (rcs, ls, ths), tr) →
      rcs = ps.map Prod.snd ∧ ls.length = ps.length ∧ ths.length = ps.length := by
  intro ps
  induction ps with
  | nil =>
    intro rcs ls ths tr h
    rw [runLevels] at h
    simp only [Prod.mk.injEq, Except.ok.injEq] at h
    obtain ⟨⟨h1, h2, h3⟩, _⟩ := h
    simp [← h1, ← h2, ← h3]
  | cons p ps ih =>
    intro rcs ls ths tr h
    rcases hrt : runTrials ep payload p.1 p.2 (List.range t) with ⟨r1, tr1⟩
    rcases r1 with e1 | ⟨lats, thrs⟩
    · rw [runLevels, hrt] at h
      dsimp only at h
      simp at h
    · rcases hrl : runLevels ep payload t ps with ⟨r2, tr2⟩
      rcases r2 with e2 | ⟨rcs2, ls2, ths2⟩
      · rw [runLevels, hrt, hrl] at h
        dsimp only at h
        simp at h
      · rw [runLevels, hrt, hrl] at h
        dsimp only at h
        simp only [Prod.mk.injEq, Except.ok.injEq] at h
        obtain ⟨⟨h1, h2, h3⟩, _⟩ := h
        obtain ⟨i1, i2, i3⟩ := ih hrl
        subst h1 h2 h3
        simp [i1, i2, i3]

/-- On a completed level, the trace is one `predict` call per request of
each trial, in order. -/
theorem runTrials_ok_snd {ep : Endpoint α} {payload : α} {li c : ℕ} :
    ∀ {ts : List ℕ} {q : List (Option ℚ) × List ℚ} {tr : List (Call α)},
      runTrials ep payload li c ts = (Except.ok q, tr) →
      tr = ts.flatMap fun ti => (List.range c).map fun ri => (li, ti, ri, payload) := by
  intro ts
  induction ts with
  | nil =>
    intro q tr h
    rw [runTrials] at h
    simp only [Prod.mk.injEq] at h
    simp [← h.2]
  | cons ti ts ih =>
    intro q tr h
    rcases hrt : runTrial ep payload (ep.order li ti) li ti c with ⟨r1, tr1⟩
    rcases r1 with e1 | v1
    · rw [runTrials, hrt] at h
      dsimp only at h
      simp at h
    · rcases v1 with ⟨lat, thr⟩
      rcases hrr : runTrials ep payload li c ts with ⟨r2, tr2⟩
      rcases r2 with e2 | ⟨lats, thrs⟩
      · rw [runTrials, hrt, hrr] at h
        dsimp only at h
        simp at h
      · rw [runTrials, hrt, hrr] at h
        dsimp only at h
        simp only [Prod.mk.injEq] at h
        have htr1 : tr1 = (List.range c).map fun ri => (li, ti, ri, payload) := by
          have := runTrial_snd ep payload (ep.order li ti) li ti c
          rw [hrt] at this
          exact this
        rw [List.flatMap_cons, ← h.2, htr1, ih hrr]

/-- On a completed run, the trace is the concatenation of the levels'
traces, in order. -/
theorem runLevels_ok_snd {ep : Endpoint α} {payload : α} {t : ℕ} :
    ∀ {ps : List (ℕ × ℕ)} {res : List ℕ × List (Option ℚ) × List (Option ℚ)} {tr : List (Call α)},
      runLevels ep payload t ps = (Except.ok res, tr) →
      tr = ps.flatMap fun p => (List.range t).flatMap fun ti =>
        (List.range p.2).map fun ri => (p.1, ti, ri, payload) := by
  intro ps
  induction ps with
  | nil =>
    intro res tr h
    rw [runLevels] at h
    simp only [Prod.mk.injEq] at h
    simp [← h.2]
  | cons p ps ih =>
    intro res tr h
    rcases hrt : runTrials ep payload p.1 p.2 (List.range t) with ⟨r1, tr1⟩
    rcases r1 with e1 | ⟨lats, thrs⟩
    · rw [runLevels, hrt] at h
      dsimp only at h
      simp at h
    · rcases hrl : runLevels ep payload t ps with ⟨r2, tr2⟩
      rcases r2 with e2 | ⟨rcs2, ls2, ths2⟩
      · rw [runLevels, hrt, hrl] at h
        dsimp only at h
        simp at h
      · rw [runLevels, hrt, hrl] at h
        dsimp only at h
        simp only [Prod.mk.injEq] at h
        rw [List.flatMap_cons, ← h.2, runTrials_ok_snd hrt, ih hrl]

/-- On a completed level, every trial completed. -/
theorem runTrials_ok_trial {ep : Endpoint α} {payload : α} {li c : ℕ} :
    ∀ {ts : List ℕ} {q : List (Option ℚ) × List ℚ} {tr : List (Call α)},
      runTrials ep payload li c ts = (Except.ok q, tr) →
      ∀ ti ∈ ts, ∃ v tr1, runTrial ep payload (ep.order li ti) li ti c = (Except.ok v, tr1) := by
  intro ts
  induction ts with
  | nil => intro q tr _ ti hti; cases hti
  | cons ti0 ts ih =>
    intro q tr h ti hti
    rcases hrt : runTrial ep payload (ep.order li ti0) li ti0 c with ⟨r1, tr1⟩
    rcases r1 with e1 | v1
    · rw [runTrials, hrt] at h
      dsimp only at h
      simp at h
    · rcases v1 with ⟨lat, thr⟩
      rcases hrr : runTrials ep payload li c ts with ⟨r2, tr2⟩
      rcases r2 with e2 | ⟨lats, thrs⟩
      · rw [runTrials, hrt, hrr] at h
        dsimp only at h
        simp at h
      · rcases List.mem_cons.mp hti with rfl | hti2
        · exact ⟨(lat, thr), tr1, hrt⟩
        · exact ih hrr ti hti2

/-- On a completed run, every level completed. -/
theorem runLevels_ok_trials {ep : Endpoint α} {payload : α} {t : ℕ} :
    ∀ {ps : List (ℕ × ℕ)} {res : List ℕ × List (Option ℚ) × List (Option ℚ)} {tr : List (Call α)},
      runLevels ep payload t ps = (Except.ok res, tr) →
      ∀ p ∈ ps, ∃ q tr1, runTrials ep payload p.1 p.2 (List.range t) = (Except.ok q, tr1) := by
  intro ps
  induction ps with
  | nil => intro res tr _ p hp; cases hp
  | cons p0 ps ih =>
    intro res tr h p hp
    rcases hrt : runTrials ep payload p0.1 p0.2 (List.range t) with ⟨r1, tr1⟩
    rcases r1 with e1 | ⟨lats, thrs⟩
    · rw [runLevels, hrt] at h
      dsimp only at h
      simp at h
    · rcases hrl : runLevels ep payload t ps with ⟨r2, tr2⟩
      rcases r2 with e2 | ⟨rcs2, ls2, ths2⟩
      · rw [runLevels, hrt, hrl] at h
        dsimp only at h
        simp at h
      · rcases List.mem_cons.mp hp with rfl | hp2
        · exact ⟨(lats, thrs), tr1, hrt⟩
        · exact ih hrl p hp2

/-- On a completed trial, every collected future's `predict` call
returned. -/
theorem runTrial_ok_duration {ep : Endpoint α} {payload : α} {o : List ℕ} {li ti c : ℕ}
    {v : Option ℚ × ℚ} {tr : List (Call α)}
    (h : runTrial ep payload o li ti c = (Except.ok v, tr)) :
    ∀ r ∈ o, ∃ d, ep.duration li ti r payload = Except.ok d := by
  obtain ⟨-, batch, hcb, -, -⟩ := runTrial_ok_inv h
  intro r hr
  obtain ⟨d, hd⟩ := collectBatch_ok_forall hcb r hr
  exact ⟨d, by simpa [send_request] using hd⟩

/-- Every call in a level's trace belongs to a trial of that level that
either completed, or raised the very exception the level propagates. -/
theorem runTrials_mem {ep : Endpoint α} {payload : α} {li c : ℕ} :
    ∀ {ts : List ℕ} {e : Call α}, e ∈ (runTrials ep payload li c ts).2 →
      ∃ ti ∈ ts, e ∈ (runTrial ep payload (ep.order li ti) li ti c).2 ∧
        ((∃ v, (runTrial ep payload (ep.order li ti) li ti c).1 = Except.ok v) ∨
          ∃ er, (runTrial ep payload (ep.order li ti) li ti c).1 = Except.error er ∧
            (runTrials ep payload li c ts).1 = Except.error er) := by
  intro ts
  induction ts with
  | nil => intro e he; rw [runTrials] at he; cases he
  | cons ti ts ih =>
    intro e he
    rcases hrt : runTrial ep payload (ep.order li ti) li ti c with ⟨r1, tr1⟩
    rcases r1 with e1 | v1
    · have hres : runTrials ep payload li c (ti :: ts) = (Except.error e1, tr1) := by
        rw [runTrials, hrt]
      rw [hres] at he
      exact ⟨ti, List.mem_cons_self ti ts, by rw [hrt]; exact he,
        Or.inr ⟨e1, by rw [hrt], by rw [hres]⟩⟩
    · rcases v1 with ⟨lat, thr⟩
      rcases hrr : runTrials ep payload li c ts with ⟨r2, tr2⟩
      rcases r2 with e2 | ⟨lats, thrs⟩
      · have hres : runTrials ep payload li c (ti :: ts) = (Except.error e2, tr1 ++ tr2) := by
          rw [runTrials, hrt, hrr]
        rw [hres] at he
        rcases List.mem_append.mp he with h1 | h2
        · exact ⟨ti, List.mem_cons_self ti ts,
            by rw [hrt]; exact h1, Or.inl ⟨(lat, thr), by rw [hrt]⟩⟩
        · obtain ⟨ti2, hti2, hmem, hdisj⟩ := ih (by rw [hrr]; exact h2)
          refine ⟨ti2, List.mem_cons_of_mem ti hti2, hmem, ?_⟩
          rcases hdisj with hok | ⟨er, her1, her2⟩
          · exact Or.inl hok
          · rw [hrr] at her2
            injection her2 with her3
            refine Or.inr ⟨er, her1, ?_⟩
            rw [hres, her3]
      · have hres : runTrials ep payload li c (ti :: ts)
            = (Except.ok (lat :: lats, thr :: thrs), tr1 ++ tr2) := by
          rw [runTrials, hrt, hrr]
        rw [hres] at he
        rcases List.mem_append.mp he with h1 | h2
        · exact ⟨ti, List.mem_cons_self ti ts,
            by rw [hrt]; exact h1, Or.inl ⟨(lat, thr), by rw [hrt]⟩⟩
        · obtain ⟨ti2, hti2, hmem, hdisj⟩ := ih (by rw [hrr]; exact h2)
          refine ⟨ti2, List.mem_cons_of_mem ti hti2, hmem, ?_⟩
          rcases hdisj with hok | ⟨er, her1, her2⟩
          · exact Or.inl hok
          · rw [hrr] at her2
            cases her2

/-- Every call in a run's trace belongs to a level that either completed,
or raised the very exception the run propagates. -/
theorem runLevels_mem {ep : Endpoint α} {payload : α} {t : ℕ} :
    ∀ {ps : List (ℕ × ℕ)} {e : Call α}, e ∈ (runLevels ep payload t ps).2 →
      ∃ p ∈ ps, e ∈ (runTrials ep payload p.1 p.2 (List.range t)).2 ∧
        ((∃ q, (runTrials ep payload p.1 p.2 (List.range t)).1 = Except.ok q) ∨
          ∃ er, (runTrials ep payload p.1 p.2 (List.range t)).1 = Except.error er ∧
            (runLevels ep payload t ps).1 = Except.error er) := by
  intro ps
  induction ps with
  | nil => intro e he; rw [runLevels] at he; cases he
  | cons p ps ih =>
    intro e he
    rcases hrt : runTrials ep payload p.1 p.2 (List.range t) with ⟨r1, tr1⟩
    rcases r1 with e1 | ⟨lats, thrs⟩
    · have hres : runLevels ep payload t (p :: ps) = (Except.error e1, tr1) := by
        rw [runLevels, hrt]
      rw [hres] at he
      exact ⟨p, List.mem_cons_self p ps, by rw [hrt]; exact he,
        Or.inr ⟨e1, by rw [hrt], by rw [hres]⟩⟩
    · rcases hrl : runLevels ep payload t ps with ⟨r2, tr2⟩
      rcases r2 with e2 | ⟨rcs2, ls2, ths2⟩
      · have hres : runLevels ep payload t (p :: ps) = (Except.error e2, tr1 ++ tr2) := by
          rw [runLevels, hrt, hrl]
        rw [hres] at he
        rcases List.mem_append.mp he with h1 | h2
        · exact ⟨p, List.mem_cons_self p ps,
            by rw [hrt]; exact h1, Or.inl ⟨(lats, thrs), by rw [hrt]⟩⟩
        · obtain ⟨p2, hp2, hmem, hdisj⟩ := ih (by rw [hrl]; exact h2)
          refine ⟨p2, List.mem_cons_of_mem p hp2, hmem, ?_⟩
          rcases hdisj with hok | ⟨er, her1, her2⟩
          · exact Or.inl hok
          · rw [hrl] at her2
            injection her2 with her3
            refine Or.inr ⟨er, her1, ?_⟩
            rw [hres, her3]
      · have hres : runLevels ep payload t (p :: ps)
            = (Except.ok (p.2 :: rcs2, npMeanO lats :: ls2, npMean thrs :: ths2), tr1 ++ tr2) := by
          rw [runLevels, hrt, hrl]
        rw [hres] at he
        rcases List.mem_append.mp he with h1 | h2
        · exact ⟨p, List.mem_cons_self p ps,
            by rw [hrt]; exact h1, Or.inl ⟨(lats, thrs), by rw [hrt]⟩⟩
        · obtain ⟨p2, hp2, hmem, hdisj⟩ := ih (by rw [hrl]; exact h2)
          refine ⟨p2, List.mem_cons_of_mem p hp2, hmem, ?_⟩
          rcases hdisj with hok | ⟨er, her1, her2⟩
          · exact Or.inl hok
          · rw [hrl] at her2
            cases her2

/-- Components of a call recorded in a level's trace. -/
theorem runTrials_mem_comp {ep : Endpoint α} {payload : α} {li c : ℕ}
    {ts : List ℕ} {e : Call α} (he : e ∈ (runTrials ep payload li c ts).2) :
    e.1 = li ∧ e.2.1 ∈ ts ∧ e.2.2.1 < c ∧ e.2.2.2 = payload := by
  obtain ⟨ti, hti, hmem, -⟩ := runTrials_mem he
  obtain ⟨ri, hri, rfl⟩ := runTrial_mem hmem
  exact ⟨rfl, hti, hri, rfl⟩

/-- Components of a call recorded in a run's trace. -/
theorem runLevels_mem_comp {ep : Endpoint α} {payload : α} {t : ℕ}
    {ps : List (ℕ × ℕ)} {e : Call α} (he : e ∈ (runLevels ep payload t ps).2) :
    ∃ p ∈ ps, e.1 = p.1 ∧ e.2.1 < t ∧ e.2.2.1 < p.2 ∧ e.2.2.2 = payload := by
  obtain ⟨p, hp, hmem, -⟩ := runLevels_mem he
  obtain ⟨h1, h2, h3, h4⟩ := runTrials_mem_comp hmem
  exact ⟨p, hp, h1, List.mem_range.mp h2, h3, h4⟩

/-- The identifying key of a recorded call: which request of which trial of
which level performed it. -/
def callKey (e : Call α) : ℕ × ℕ × ℕ := (e.1, e.2.1, e.2.2.1)

/-- Within one level, no logical request is ever invoked twice. -/
theorem runTrials_keys_nodup {ep : Endpoint α} {payload : α} {li c : ℕ} :
    ∀ {ts : List ℕ}, ts.Nodup → ((runTrials ep payload li c ts).2.map callKey).Nodup := by
  intro ts
  induction ts with
  | nil => intro _; rw [runTrials]; simp
  | cons ti ts ih =>
    intro hnd
    rw [List.nodup_cons] at hnd
    have hkey1 : ∀ {tr1 : List (Call α)},
        tr1 = (List.range c).map (fun ri => (li, ti, ri, payload)) →
        (tr1.map callKey).Nodup := by
      intro tr1 htr1
      rw [htr1, List.map_map]
      refine (List.nodup_range c).map ?_
      intro a b hab
      simpa [callKey] using hab
    rcases hrt : runTrial ep payload (ep.order li ti) li ti c with ⟨r1, tr1⟩
    have htr1 : tr1 = (List.range c).map fun ri => (li, ti, ri, payload) := by
      have := runTrial_snd ep payload (ep.order li ti) li ti c
      rw [hrt] at this
      exact this
    rcases r1 with e1 | v1
    · rw [runTrials, hrt]
      dsimp only
      exact hkey1 htr1
    · rcases v1 with ⟨lat, thr⟩
      rcases hrr : runTrials ep payload li c ts with ⟨r2, tr2⟩
      have hdisj : ∀ k ∈ tr1.map callKey, k ∈ tr2.map callKey → False := by
        intro k hk1 hk2
        rcases List.mem_map.mp hk1 with ⟨a, ha, rfl⟩
        rcases List.mem_map.mp hk2 with ⟨b, hb, hkb⟩
        rw [htr1] at ha
        rcases List.mem_map.mp ha with ⟨ri, _, rfl⟩
        have hb2 : b.2.1 ∈ ts := (runTrials_mem_comp (by rw [hrr]; exact hb)).2.1
        have : b.2.1 = ti := by
          have := congrArg (fun k => k.2.1) hkb
          simpa [callKey] using this
        rw [this] at hb2
        exact hnd.1 hb2
      have hnd2 : (tr2.map callKey).Nodup := by
        have := ih hnd.2
        rw [hrr] at this
        exact this
      rcases r2 with e2 | ⟨lats, thrs⟩
      · rw [runTrials, hrt, hrr]
        dsimp only
        rw [List.map_append]
        exact List.Nodup.append (hkey1 htr1) hnd2 hdisj
      · rw [runTrials, hrt, hrr]
        dsimp only
        rw [List.map_append]
        exact List.Nodup.append (hkey1 htr1) hnd2 hdisj

/-- Across a whole run, no logical request is ever invoked twice. -/
theorem runLevels_keys_nodup {ep : Endpoint α} {payload : α} {t : ℕ} :
    ∀ {ps : List (ℕ × ℕ)}, (ps.map Prod.fst).Nodup →
      ((runLevels ep payload t ps).2.map callKey).Nodup := by
  intro ps
  induction ps with
  | nil => intro _; rw [runLevels]; simp
  | cons p ps ih =>
    intro hnd
    rw [List.map_cons, List.nodup_cons] at hnd
    rcases hrt : runTrials ep payload p.1 p.2 (List.range t) with ⟨r1, tr1⟩
    have hnd1 : (tr1.map callKey).Nodup := by
      have := @runTrials_keys_nodup _ ep payload p.1 p.2
        (List.range t) (List.nodup_range t)
      rw [hrt] at this
      exact this
    rcases r1 with e1 | ⟨lats, thrs⟩
    · rw [runLevels, hrt]
      dsimp only
      exact hnd1
    · rcases hrl : runLevels ep payload t ps with ⟨r2, tr2⟩
      have hdisj : ∀ k ∈ tr1.map callKey, k ∈ tr2.map callKey → False := by
        intro k hk1 hk2
        rcases List.mem_map.mp hk1 with ⟨a, ha, rfl⟩
        rcases List.mem_map.mp hk2 with ⟨b, hb, hkb⟩
        have ha1 : a.1 = p.1 := (runTrials_mem_comp (by rw [hrt]; exact ha)).1
        obtain ⟨p2, hp2, hb1, -⟩ := runLevels_mem_comp (by rw [hrl]; exact hb)
        have : a.1 = b.1 := by
          have := congrArg (fun k => k.1) hkb
          simpa [callKey] using this.symm
        apply hnd.1
        refine List.mem_map.mpr ⟨p2, hp2, ?_⟩
        rw [← hb1, ← this, ha1]
      have hnd2 : (tr2.map callKey).Nodup := by
        have := ih hnd.2
        rw [hrl] at this
        exact this
      rcases r2 with e2 | ⟨rcs2, ls2, ths2⟩
      · rw [runLevels, hrt, hrl]
        dsimp only
        rw [List.map_append]
        exact List.Nodup.append hnd1 hnd2 hdisj
      · rw [runLevels, hrt, hrl]
        dsimp only
        rw [List.map_append]
        exact List.Nodup.append hnd1 hnd2 hdisj

/-- How many calls of a single level's canonical trace target level `li`. -/
theorem filter_block_length (payload : α) (t lj li c : ℕ) :
    (((List.range t).flatMap fun ti => (List.range c).map fun ri =>
        ((lj, ti, ri, payload) : Call α)).filter fun e => e.1 == li).length
      = if lj = li then t * c else 0 := by
  have hmem : ∀ e ∈ (List.range t).flatMap fun ti => (List.range c).map fun ri =>
      ((lj, ti, ri, payload) : Call α), e.1 = lj := by
    intro e he
    rcases List.mem_flatMap.mp he with ⟨ti, _, hmm⟩
    rcases List.mem_map.mp hmm with ⟨ri, _, trfl⟩
    rw [← trfl]
  by_cases h : lj = li
  · rw [if_pos h]
    rw [List.filter_eq_self.mpr (fun e hee => by rw [hmem e hee, h]; simp)]
    rw [List.length_flatMap]
    have : (List.range t).map (List.length ∘ fun ti => (List.range c).map fun ri =>
        ((lj, ti, ri, payload) : Call α)) = (List.range t).map fun _ => c := by
      refine List.map_congr_left ?_
      intro ti _
      simp
    rw [this, List.map_const', List.sum_replicate, List.length_range, smul_eq_mul]
  · rw [if_neg h]
    rw [List.length_eq_zero]
    rw [List.filter_eq_nil_iff]
    intro e hee
    rw [hmem e hee]
    simpa using h

/-- A level index that occurs nowhere in the enumerated levels receives no
calls. -/
theorem filter_trace_zero (payload : α) (t li : ℕ) :
    ∀ (ps : List (ℕ × ℕ)), li ∉ ps.map Prod.fst →
      (((ps.flatMap fun p => (List.range t).flatMap fun ti =>
          (List.range p.2).map fun ri => ((p.1, ti, ri, payload) : Call α)).filter
        fun e => e.1 == li).length) = 0 := by
  intro ps hli
  rw [List.length_eq_zero, List.filter_eq_nil_iff]
  intro e hee
  rcases List.mem_flatMap.mp hee with ⟨p, hp, hmm⟩
  rcases List.mem_flatMap.mp hmm with ⟨ti, _, hmm2⟩
  rcases List.mem_map.mp hmm2 with ⟨ri, _, trfl⟩
  rw [← trfl]
  simp only [beq_iff_eq]
  intro hcontra
  exact hli (List.mem_map.mpr ⟨p, hp, hcontra⟩)

/-- The number of calls a completed run's trace records for level `li`:
`t` trials of `c` requests each. -/
theorem filter_trace_length (payload : α) (t li : ℕ) :
    ∀ {ps : List (ℕ × ℕ)} {c : ℕ}, (ps.map Prod.fst).Nodup → (li, c) ∈ ps →
      (((ps.flatMap fun p => (List.range t).flatMap fun ti =>
          (List.range p.2).map fun ri => ((p.1, ti, ri, payload) : Call α)).filter
        fun e => e.1 == li).length) = t * c := by
  intro ps
  induction ps with
  | nil => intro c _ hmem; cases hmem
  | cons p ps ih =>
    intro c hnd hmem
    rw [List.map_cons, List.nodup_cons] at hnd
    rw [List.flatMap_cons, List.filter_append, List.length_append]
    rcases List.mem_cons.mp hmem with heq | hmem2
    · have hp1 : p.1 = li := by rw [← heq]
      have hp2 : p.2 = c := by rw [← heq]
      rw [hp2, filter_block_length payload t p.1 li c, if_pos hp1]
      rw [filter_trace_zero payload t li ps (by rw [← hp1]; exact hnd.1)]
      omega
    · have hp1 : p.1 ≠ li := by
        intro hcontra
        exact hnd.1 (List.mem_map.mpr ⟨(li, c), hmem2, hcontra.symm⟩)
      rw [filter_block_length payload t p.1 li p.2, if_neg hp1]
      rw [ih hnd.2 hmem2]
      omega

/-- The trial result does not depend on the order in which the futures
complete. -/
theorem runTrial_perm (ep : Endpoint α) (payload : α) {o1 o2 : List ℕ} (li ti c : ℕ)
    (ho : o1.Perm o2) :
    runTrial ep payload o1 li ti c = runTrial ep payload o2 li ti c := by
  by_cases hc : c = 0
  · rw [runTrial, runTrial, if_pos hc, if_pos hc]
  · cases hcb : collectBatch (fun ri => send_request ep payload li ti ri) o1 with
    | error e =>
      obtain ⟨r, hr, hfr⟩ := collectBatch_error_exists hcb
      have hcb2 : collectBatch (fun ri => send_request ep payload li ti ri) o2
          = Except.error () := collectBatch_error_of_mem (ho.subset hr) hfr
      cases e
      rw [runTrial, runTrial, if_neg hc, if_neg hc, hcb, hcb2]
    | ok batch =>
      have hfg : ∀ r ∈ o1, send_request ep payload li ti r
          = Except.ok (durOf ep payload li ti r) := by
        intro r hr
        obtain ⟨v, hv⟩ := collectBatch_ok_forall hcb r hr
        rw [hv]
        have : ep.duration li ti r payload = Except.ok v := hv
        rw [durOf, this]
        rfl
      have hfg2 : ∀ r ∈ o2, send_request ep payload li ti r
          = Except.ok (durOf ep payload li ti r) :=
        fun r hr => hfg r (ho.symm.subset hr)
      have hcb1 : collectBatch (fun ri => send_request ep payload li ti ri) o1
          = Except.ok (o1.map (durOf ep payload li ti)) := collectBatch_ok_of_forall hfg
      have hcb2 : collectBatch (fun ri => send_request ep payload li ti ri) o2
          = Except.ok (o2.map (durOf ep payload li ti)) := collectBatch_ok_of_forall hfg2
      rw [runTrial, runTrial, if_neg hc, if_neg hc, hcb1, hcb2]
      dsimp only
      rw [npMean_perm (ho.map (durOf ep payload li ti))]

/-- A whole level is insensitive to future completion orders. -/
theorem runTrials_order_invariant (ep : Endpoint α) (payload : α) (o2 : ℕ → ℕ → List ℕ)
    (h : ∀ li ti, (ep.order li ti).Perm (o2 li ti)) (li c : ℕ) :
    ∀ ts : List ℕ, runTrials ep payload li c ts =
      runTrials { duration := ep.duration, elapsed := ep.elapsed, order := o2 } payload li c ts := by
  intro ts
  induction ts with
  | nil => rfl
  | cons ti ts ih =>
    rw [runTrials, runTrials]
    have h1 : runTrial { duration := ep.duration, elapsed := ep.elapsed, order := o2 }
        payload (o2 li ti) li ti c = runTrial ep payload (o2 li ti) li ti c := rfl
    have h2 : runTrial ep payload (ep.order li ti) li ti c
        = runTrial ep payload (o2 li ti) li ti c := runTrial_perm ep payload li ti c (h li ti)
    rw [h2, ← ih, h1]

/-- A whole run is insensitive to future completion orders. -/
theorem runLevels_order_invariant (ep : Endpoint α) (payload : α) (o2 : ℕ → ℕ → List ℕ)
    (h : ∀ li ti, (ep.order li ti).Perm (o2 li ti)) (t : ℕ) :
    ∀ ps : List (ℕ × ℕ), runLevels ep payload t ps =
      runLevels { duration := ep.duration, elapsed := ep.elapsed, order := o2 } payload t ps := by
  intro ps
  induction ps with
  | nil => rfl
  | cons p ps ih =>
    rw [runLevels, runLevels]
    have h1 : runTrials { duration := ep.duration, elapsed := ep.elapsed, order := o2 }
        payload p.1 p.2 (List.range t)
        = runTrials ep payload p.1 p.2 (List.range t) :=
      (runTrials_order_invariant ep payload o2 h p.1 p.2 (List.range t)).symm
    rw [h1, ← ih]

/-- With `iterations = 0` every level's trial loop is empty: no calls, and
each level's aggregates are `np.mean([])`, i.e. NaN. -/
theorem runLevels_zero (ep : Endpoint α) (payload : α) :
    ∀ ps : List (ℕ × ℕ), runLevels ep payload 0 ps
      = (Except.ok (ps.map Prod.snd, ps.map fun _ => (none : Option ℚ),
          ps.map fun _ => (none : Option ℚ)), []) := by
  intro ps
  induction ps with
  | nil => rfl
  | cons p ps ih =>
    rw [runLevels]
    have h1 : runTrials ep payload p.1 p.2 (List.range 0) = (Except.ok ([], []), []) := rfl
    rw [h1, ih]
    rfl

/-- Claim C7: with an empty list of concurrency levels, `benchmark_predictor`
returns the empty report `([], [], [])` and performs no endpoint
invocations (empty call trace). -/
theorem benchmark_empty_steps {α : Type} (ep : Endpoint α) (payload : α) (t : ℕ) :
    benchmark_predictor ep payload [] t = (Except.ok ([], [], []), []) := rfl

/-- Claim C5 (counterexample): at `steps = [1]`, `iterations = 0`, the run
raises no configuration error at all: it completes normally (with NaN
aggregates), contradicting the claim that an error is raised. -/
theorem benchmark_zero_trials_counterexample :
    benchmark_predictor stubOne () [1] 0 = (Except.ok ([1], [none], [none]), []) := by
  simp [benchmark_predictor, runLevels, runTrials, enumSteps, npMeanO, npMean]

/-- Claim C5 (amended): `benchmark_predictor` performs no configuration
validation.  With `trials_per_level = 0` it performs zero endpoint
invocations, but instead of raising it completes normally, returning one
entry per level whose latency and throughput are `np.mean([])` = NaN
(`none`). -/
theorem benchmark_zero_trials {α : Type} (ep : Endpoint α) (payload : α) (steps : List ℕ) :
    benchmark_predictor ep payload steps 0
      = (Except.ok (steps, List.replicate steps.length none,
          List.replicate steps.length none), []) := by
  rw [benchmark_predictor, runLevels_zero, enumSteps_map_snd]
  rw [List.map_const', enumSteps_length]

/-- Claim C2: on every run that completes without an exception, the three
returned lists have exactly one entry per input concurrency level, in input
order, and `request_counts` equals `steps`. -/
theorem benchmark_report_shape {α : Type} (ep : Endpoint α) (payload : α) (steps : List ℕ)
    (t : ℕ) (res : List ℕ × List (Option ℚ) × List (Option ℚ)) (tr : List (Call α))
    (h : benchmark_predictor ep payload steps t = (Except.ok res, tr)) :
    res.1 = steps ∧ res.2.1.length = steps.length ∧ res.2.2.length = steps.length := by
  rw [benchmark_predictor] at h
  obtain ⟨h1, h2, h3⟩ := runLevels_ok_shape h
  rw [enumSteps_map_snd] at h1
  rw [enumSteps_length] at h2 h3
  exact ⟨h1, h2, h3⟩

theorem benchmark_report_shape_witness :
    ([1] : List ℕ) = [1] ∧ ([some (1 : ℚ)] : List (Option ℚ)).length = ([1] : List ℕ).length ∧
      ([some (1 : ℚ)] : List (Option ℚ)).length = ([1] : List ℕ).length :=
  benchmark_report_shape stubOne () [1] 1 ([1], [some 1], [some 1]) [(0, 0, 0, ())] (by
    simp [benchmark_predictor, runLevels, runTrials, runTrial, collectBatch, send_request,
      npMean, npMeanO, listMean, stubOne, enumSteps, List.range_succ])

/-- Claim C6: within any run (completed or aborted), no logical request
(level, trial, request index) is ever invoked twice: the harness never
retries a request, so a failed invocation is never masked by a retry. -/
theorem benchmark_no_retry {α : Type} (ep : Endpoint α) (payload : α) (steps : List ℕ)
    (t : ℕ) :
    (((benchmark_predictor ep payload steps t).2).map callKey).Nodup :=
  runLevels_keys_nodup (enumSteps_fst_nodup 0 steps)

/-- Claim C1: on a completed run with `t ≥ 1` trials per level, each trial's
mean latency is the arithmetic mean of that trial's `c` request durations,
each trial's throughput is `c` divided by the trial's wall-clock time, and
every level reports the arithmetic means of those per-trial values over the
`t` trials.  (The fixed-duration stub instance is exhibited by the
witness.) -/
theorem benchmark_trial_and_level_means {α : Type} (ep : Endpoint α) (payload : α)
    (steps : List ℕ) (t : ℕ) (dur : ℕ → ℕ → ℕ → ℚ)
    (ht : t ≠ 0)
    (hpos : ∀ li, li < steps.length → steps.getD li 0 ≠ 0)
    (hord : ∀ li, li < steps.length → ∀ ti, ti < t →
      (ep.order li ti).Perm (List.range (steps.getD li 0)))
    (hdur : ∀ li, li < steps.length → ∀ ti, ti < t → ∀ ri, ri < steps.getD li 0 →
      ep.duration li ti ri payload = Except.ok (dur li ti ri))
    (hel : ∀ li ti, ep.elapsed li ti ≠ 0) :
    (benchmark_predictor ep payload steps t).1
      = Except.ok (steps,
          (enumSteps 0 steps).map fun p => some (listMean ((List.range t).map fun ti =>
            listMean ((List.range p.2).map fun ri => dur p.1 ti ri))),
          (enumSteps 0 steps).map fun p => some (listMean ((List.range t).map fun ti =>
            (p.2 : ℚ) / ep.elapsed p.1 ti))) := by
  have key : ∀ p ∈ enumSteps 0 steps, p.1 < steps.length ∧ steps.getD p.1 0 = p.2 := by
    intro p hp
    have h := mem_enumSteps hp
    exact ⟨by simpa using h.2.1, by simpa using h.2.2⟩
  have hc' : ∀ p ∈ enumSteps 0 steps, p.2 ≠ 0 := by
    intro p hp
    rw [← (key p hp).2]
    exact hpos p.1 (key p hp).1
  have ho' : ∀ p ∈ enumSteps 0 steps, ∀ ti, ti < t → (ep.order p.1 ti).Perm (List.range p.2) := by
    intro p hp ti hti
    have := hord p.1 (key p hp).1 ti hti
    rw [(key p hp).2] at this
    exact this
  have hd' : ∀ p ∈ enumSteps 0 steps, ∀ ti, ti < t → ∀ ri, ri < p.2 →
      ep.duration p.1 ti ri payload = Except.ok (dur p.1 ti ri) := by
    intro p hp ti hti ri hri
    refine hdur p.1 (key p hp).1 ti hti ri ?_
    rw [(key p hp).2]
    exact hri
  have he' : ∀ p ∈ enumSteps 0 steps, ∀ ti, ti < t → ep.elapsed p.1 ti ≠ 0 :=
    fun p _ ti _ => hel p.1 ti
  have hrun := @runLevels_ok_eq _ ep payload t dur ht (enumSteps 0 steps) hc' ho' hd' he'
  rw [benchmark_predictor, hrun]
  rw [enumSteps_map_snd]

theorem benchmark_trial_and_level_means_witness :
    (benchmark_predictor stubHalf () [2] 2).1
      = Except.ok ([2], [some ((1 : ℚ) / 2)], [some (4 : ℚ)]) := by
  have h := benchmark_trial_and_level_means stubHalf () [2] 2 (fun _ _ _ => 1 / 2)
    (by decide)
    (by intro li hli; have hli0 : li = 0 := by simpa using hli
        subst hli0; decide)
    (by intro li hli ti _; have hli0 : li = 0 := by simpa using hli
        subst hli0
        exact (by decide : ([1, 0] : List ℕ).Perm (List.range 2)))
    (by intro li _ ti _ ri _; rfl)
    (by intro li ti; show (1 / 2 : ℚ) ≠ 0; norm_num)
  rw [h]
  norm_num [enumSteps, listMean, List.range_succ, stubHalf]

/-- Claim C3: on a completed run, level number `li` (concurrency
`c = steps[li]`) performs exactly `c * t` `predict` invocations, and every
recorded invocation received the payload value supplied to
`benchmark_predictor`. -/
theorem benchmark_invocation_count {α : Type} (ep : Endpoint α) (payload : α)
    (steps : List ℕ) (t li : ℕ)
    (res : List ℕ × List (Option ℚ) × List (Option ℚ)) (tr : List (Call α))
    (h : benchmark_predictor ep payload steps t = (Except.ok res, tr))
    (hli : li < steps.length) :
    (tr.filter fun e => e.1 == li).length = steps.getD li 0 * t ∧
      tr.map (fun e => e.2.2.2) = List.replicate tr.length payload := by
  rw [benchmark_predictor] at h
  have htr := runLevels_ok_snd h
  constructor
  · rw [htr]
    have hmem : (li, steps.getD li 0) ∈ enumSteps 0 steps := by
      have := getD_mem_enumSteps (n := 0) (i := li) (l := steps) hli
      simpa using this
    rw [filter_trace_length payload t li (enumSteps_fst_nodup 0 steps) hmem]
    exact Nat.mul_comm t _
  · refine List.eq_replicate_iff.mpr ⟨by simp, ?_⟩
    intro b hb
    rcases List.mem_map.mp hb with ⟨e, he, rfl⟩
    have he2 : e ∈ (runLevels ep payload t (enumSteps 0 steps)).2 := by
      rw [h]
      exact he
    obtain ⟨p, -, -, -, -, h5⟩ := runLevels_mem_comp he2
    exact h5

theorem benchmark_invocation_count_witness :
    (([((0 : ℕ), (0 : ℕ), (0 : ℕ), ())] : List (Call Unit)).filter
        fun e => e.1 == 0).length = [1].getD 0 0 * 1 ∧
      ([((0 : ℕ), (0 : ℕ), (0 : ℕ), ())] : List (Call Unit)).map (fun e => e.2.2.2)
        = List.replicate ([((0 : ℕ), (0 : ℕ), (0 : ℕ), ())] : List (Call Unit)).length () :=
  benchmark_invocation_count stubOne () [1] 1 0 ([1], [some 1], [some 1]) [(0, 0, 0, ())]
    (by simp [benchmark_predictor, runLevels, runTrials, runTrial, collectBatch, send_request,
      npMean, npMeanO, listMean, stubOne, enumSteps, List.range_succ])
    (by decide)

/-- Claim C4: on a run that completed (returned a report), every `predict`
invocation that was performed returned successfully — a raised exception is
never suppressed or converted into a recorded latency; it would have made
the run fail. -/
theorem benchmark_failure_signaled {α : Type} (ep : Endpoint α) (payload : α)
    (steps : List ℕ) (t : ℕ)
    (res : List ℕ × List (Option ℚ) × List (Option ℚ)) (tr : List (Call α)) (e : Call α)
    (hwf : ∀ li ti, li < steps.length → (ep.order li ti).Perm (List.range (steps.getD li 0)))
    (h : benchmark_predictor ep payload steps t = (Except.ok res, tr))
    (he : e ∈ tr) :
    ep.duration e.1 e.2.1 e.2.2.1 e.2.2.2 ≠ Except.error () := by
  rw [benchmark_predictor] at h
  have he2 : e ∈ (runLevels ep payload t (enumSteps 0 steps)).2 := by
    rw [h]
    exact he
  obtain ⟨p, hp, hmem, -⟩ := runLevels_mem he2
  obtain ⟨q, tr1, hq⟩ := runLevels_ok_trials h p hp
  obtain ⟨ti, hti, hmem2, -⟩ := runTrials_mem hmem
  obtain ⟨v, tr2, hv⟩ := runTrials_ok_trial hq ti hti
  obtain ⟨ri, hric, rfl⟩ := runTrial_mem hmem2
  have hkey := mem_enumSteps hp
  have hlen : p.1 < steps.length := by simpa using hkey.2.1
  have hgd : steps.getD p.1 0 = p.2 := by simpa using hkey.2.2
  have hperm := hwf p.1 ti hlen
  rw [hgd] at hperm
  have hri : ri ∈ ep.order p.1 ti := hperm.symm.subset (List.mem_range.mpr hric)
  obtain ⟨d, hd⟩ := runTrial_ok_duration hv ri hri
  intro hcontra
  dsimp only at hcontra
  rw [hd] at hcontra
  cases hcontra

theorem benchmark_failure_signaled_witness :
    stubOne.duration 0 0 0 () ≠ Except.error () :=
  benchmark_failure_signaled stubOne () [1] 1 ([1], [some 1], [some 1]) [(0, 0, 0, ())]
    ((0 : ℕ), (0 : ℕ), (0 : ℕ), ())
    (by intro li ti hli; have hli0 : li = 0 := by simpa using hli
        subst hli0
        exact (by decide : ([0] : List ℕ).Perm (List.range 1)))
    (by simp [benchmark_predictor, runLevels, runTrials, runTrial, collectBatch, send_request,
      npMean, npMeanO, listMean, stubOne, enumSteps, List.range_succ])
    (by decide)

/-- Claim C10: if any performed `predict` invocation raised, the whole run
aborts: `benchmark_predictor` propagates that exception, so no report is
returned and results accumulated for earlier levels and trials are
discarded. -/
theorem benchmark_abort_on_failure {α : Type} (ep : Endpoint α) (payload : α)
    (steps : List ℕ) (t : ℕ)
    (bres : Except PyErr (List ℕ × List (Option ℚ) × List (Option ℚ)))
    (tr : List (Call α)) (e : Call α)
    (hwf : ∀ li ti, li < steps.length → (ep.order li ti).Perm (List.range (steps.getD li 0)))
    (h : benchmark_predictor ep payload steps t = (bres, tr))
    (he : e ∈ tr)
    (hfail : ep.duration e.1 e.2.1 e.2.2.1 e.2.2.2 = Except.error ()) :
    bres = Except.error PyErr.predictErr := by
  rw [benchmark_predictor] at h
  have he2 : e ∈ (runLevels ep payload t (enumSteps 0 steps)).2 := by
    rw [h]
    exact he
  obtain ⟨p, hp, hmem, hdisjL⟩ := runLevels_mem he2
  obtain ⟨ti, hti, hmem2, hdisjT⟩ := runTrials_mem hmem
  obtain ⟨ri, hric, rfl⟩ := runTrial_mem hmem2
  have hkey := mem_enumSteps hp
  have hlen : p.1 < steps.length := by simpa using hkey.2.1
  have hgd : steps.getD p.1 0 = p.2 := by simpa using hkey.2.2
  have hperm := hwf p.1 ti hlen
  rw [hgd] at hperm
  have hri : ri ∈ ep.order p.1 ti := hperm.symm.subset (List.mem_range.mpr hric)
  have hc : p.2 ≠ 0 := by omega
  have htrial : (runTrial ep payload (ep.order p.1 ti) p.1 ti p.2).1
      = Except.error PyErr.predictErr :=
    runTrial_error_of_fail ep payload hc hri (by dsimp only at hfail; exact hfail)
  rcases hdisjT with ⟨v, hok⟩ | ⟨er, her1, her2⟩
  · rw [htrial] at hok
    cases hok
  · rw [htrial] at her1
    injection her1 with her1'
    subst her1'
    rcases hdisjL with ⟨q, hokL⟩ | ⟨er2, herL1, herL2⟩
    · rw [her2] at hokL
      cases hokL
    · rw [her2] at herL1
      injection herL1 with herL1'
      subst herL1'
      rw [h] at herL2
      exact herL2

theorem benchmark_abort_on_failure_witness :
    (benchmark_predictor stubFailL1 () [1, 1] 1).1 = Except.error PyErr.predictErr :=
  benchmark_abort_on_failure stubFailL1 () [1, 1] 1
    (benchmark_predictor stubFailL1 () [1, 1] 1).1
    (benchmark_predictor stubFailL1 () [1, 1] 1).2
    ((1 : ℕ), (0 : ℕ), (0 : ℕ), ())
    (by intro li ti hli
        have hli01 : li = 0 ∨ li = 1 := by
          have : li < 2 := by simpa using hli
          omega
        rcases hli01 with rfl | rfl
        · exact (by decide : ([0] : List ℕ).Perm (List.range 1))
        · exact (by decide : ([0] : List ℕ).Perm (List.range 1)))
    rfl
    (by simp [benchmark_predictor, runLevels, runTrials, runTrial, collectBatch, send_request,
      npMean, npMeanO, listMean, stubFailL1, enumSteps, List.range_succ])
    rfl

/-- Claim C8: the report of a run is identical for every order in which the
concurrent request completions are collected: replacing each trial's
completion order by any permutation of it leaves `benchmark_predictor`'s
result (and trace) unchanged. -/
theorem benchmark_completion_order_invariant {α : Type} (ep : Endpoint α) (payload : α)
    (steps : List ℕ) (t : ℕ) (o2 : ℕ → ℕ → List ℕ)
    (h : ∀ li ti, (ep.order li ti).Perm (o2 li ti)) :
    benchmark_predictor ep payload steps t =
      benchmark_predictor { duration := ep.duration, elapsed := ep.elapsed, order := o2 }
        payload steps t := by
  rw [benchmark_predictor, benchmark_predictor]
  exact runLevels_order_invariant ep payload o2 h t (enumSteps 0 steps)

theorem benchmark_completion_order_invariant_witness :
    benchmark_predictor stubHalf () [2] 1 = benchmark_predictor stubHalfSwap () [2] 1 :=
  benchmark_completion_order_invariant stubHalf () [2] 1 (fun _ _ => [0, 1])
    (fun _ _ => (by decide : ([1, 0] : List ℕ).Perm [0, 1]))

/-- Claim C9: a trial only produces a result once all `c` request latencies
have been collected (the join is a barrier): a completed trial's batch is
the complete list of all `c` durations, its reported mean latency is the
mean over all `c` of them (never a partial subset), and its throughput uses
the wall-clock time of the whole batch. -/
theorem trial_barrier_uses_all {α : Type} (ep : Endpoint α) (payload : α)
    (o : List ℕ) (li ti c : ℕ) (lat : Option ℚ) (thr : ℚ) (tr : List (Call α))
    (ho : o.Perm (List.range c))
    (h : runTrial ep payload o li ti c = (Except.ok (lat, thr), tr)) :
    collectBatch (fun ri => send_request ep payload li ti ri) o
        = Except.ok (o.map (durOf ep payload li ti)) ∧
      (o.map (durOf ep payload li ti)).length = c ∧
      lat = some (listMean ((List.range c).map (durOf ep payload li ti))) ∧
      thr = (c : ℚ) / ep.elapsed li ti := by
  obtain ⟨hc, batch, hcb, hel, hv⟩ := runTrial_ok_inv h
  have hfg : ∀ r ∈ o, send_request ep payload li ti r
      = Except.ok (durOf ep payload li ti r) := by
    intro r hr
    obtain ⟨v, hvv⟩ := collectBatch_ok_forall hcb r hr
    rw [hvv]
    have hvd : ep.duration li ti r payload = Except.ok v := hvv
    rw [durOf, hvd]
    rfl
  have hcb2 : collectBatch (fun ri => send_request ep payload li ti ri) o
      = Except.ok (o.map (durOf ep payload li ti)) := collectBatch_ok_of_forall hfg
  have hbatch : batch = o.map (durOf ep payload li ti) := by
    rw [hcb] at hcb2
    injection hcb2
  have hv1 : lat = npMean batch := by
    have := congrArg Prod.fst hv
    simpa using this
  have hv2 : thr = (c : ℚ) / ep.elapsed li ti := by
    have := congrArg Prod.snd hv
    simpa using this
  refine ⟨hcb2, ?_, ?_, hv2⟩
  · rw [List.length_map, ho.length_eq, List.length_range]
  · rw [hv1, hbatch, npMean_perm (ho.map (durOf ep payload li ti))]
    rw [npMean_of_ne_nil (by simp [List.range_eq_nil, hc])]

theorem trial_barrier_uses_all_witness :
    collectBatch (fun ri => send_request stubHalf () 0 0 ri) [1, 0]
        = Except.ok ([1, 0].map (durOf stubHalf () 0 0)) ∧
      ([1, 0].map (durOf stubHalf () 0 0)).length = 2 ∧
      some ((1 : ℚ) / 2)
        = some (listMean ((List.range 2).map (durOf stubHalf () 0 0))) ∧
      (4 : ℚ) = (2 : ℚ) / stubHalf.elapsed 0 0 :=
  trial_barrier_uses_all stubHalf () [1, 0] 0 0 2 (some (1 / 2)) 4
    [(0, 0, 0, ()), (0, 0, 1, ())]
    (by decide)
    (by simp [runTrial, collectBatch, send_request, npMean, listMean, stubHalf,
      List.range_succ]
        norm_num)

end RerankerBench
